import Mathlib

/-!
Verification of the summarization pipeline of `src/summarizer.py`
(class `Summarizer`), together with the near-identical backend variant in
`src/arxiv_summarizer.py`.

Python strings are modelled as `List Char`.  The stages of
`Summarizer.preprocess_and_chunk_text` (regex-based cleaning, whitespace
splitting, stopword elision, greedy chunking) are translated one by one;
`Summarizer.summarize` / `Summarizer._summarize_with_openai` are modelled
with an explicit `Except` monad over an abstract backend function, and
`Summarizer.summarize_in_bullets`'s formatting is a pure function.
-/

/-- A Python string, modelled as its list of characters. -/
abbrev Str := List Char

/-- The characters of a Lean string literal, used to write concrete inputs. -/
def str (s : String) : Str := s.data

/-- Python's whitespace class restricted to ASCII (`str.isspace`, `str.split()`,
`str.strip()` and `re`'s `\s` agree on this set for ASCII characters):
tab, LF, VT, FF, CR, FS, GS, RS, US and space. -/
def isPySpace (c : Char) : Bool :=
  let n := c.toNat
  n == 32 || n == 9 || n == 10 || n == 11 || n == 12 || n == 13 ||
    (28 ≤ n && n ≤ 31)

/-- Remove trailing Python whitespace (the right half of `str.strip()`). -/
def trimRight (l : Str) : Str :=
  (l.reverse.dropWhile isPySpace).reverse

/-- Python's `str.strip()` with no arguments: remove leading and trailing
whitespace. -/
def pyStrip (l : Str) : Str :=
  trimRight (l.dropWhile isPySpace)

/-- One iteration of the chunking loop of `preprocess_and_chunk_text`
(`src/summarizer.py` lines 71-78).  The state is the pair
`(chunks, current_chunk)`; `+ 1` is the literal `+ 1` of line 72, and the
appended `' '` is the trailing space of lines 74 and 78. -/
def packStep (maxLen : Nat) (st : List Str × Str) (sentence : Str) :
    List Str × Str :=
  if st.2.length + sentence.length + 1 ≤ maxLen then
    (st.1, st.2 ++ sentence ++ [' '])
  else
    (st.1 ++ [pyStrip st.2], sentence ++ [' '])

/-- The chunking loop of `preprocess_and_chunk_text` including the final
flush `if current_chunk: chunks.append(current_chunk.strip())`
(`src/summarizer.py` lines 68-82), before empty chunks are filtered out. -/
def packLoop (sentences : List Str) (maxLen : Nat) : List Str :=
  let st := sentences.foldl (packStep maxLen) ([], [])
  if st.2 ≠ [] then st.1 ++ [pyStrip st.2] else st.1

/-- The full packing step of `preprocess_and_chunk_text`
(`src/summarizer.py` lines 68-87): the chunking loop followed by
`chunks = [chunk for chunk in chunks if chunk]`. -/
def pack (sentences : List Str) (maxLen : Nat) : List Str :=
  (packLoop sentences maxLen).filter (· ≠ [])

/-- Helper for `removeSpans`, a one-pass state machine.  The first argument
is `none` outside any candidate span, or `some buf` with `buf` the (reversed)
text read since the last unmatched opening bracket, that bracket included.
Inside a candidate span, a closing bracket `cl` ends (and deletes) the span;
a newline aborts the candidate (Python's `.` in `re` does not match `'\n'`),
and the read text is emitted verbatim — no opening bracket inside it can
start a match either, because the same newline blocks it; end of input aborts
likewise. -/
def removeSpansAux (op cl : Char) : Option Str → Str → Str
  | none, [] => []
  | some buf, [] => buf.reverse
  | none, c :: cs =>
    if c = op then removeSpansAux op cl (some [c]) cs
    else c :: removeSpansAux op cl none cs
  | some buf, c :: cs =>
    if c = cl then removeSpansAux op cl none cs
    else if c = '\n' then buf.reverse ++ c :: removeSpansAux op cl none cs
    else removeSpansAux op cl (some (c :: buf)) cs

/-- Python's `re.sub(r'\[.*?\]', '', t)` (and the `(...)`/`<...>` variants,
`src/summarizer.py` lines 56-58): scanning left to right, each occurrence of
`op` followed — with no intervening newline — by a closing `cl` is removed
together with everything in between (the non-greedy `.*?` stops at the first
such `cl`); an `op` with no reachable `cl` is kept verbatim. -/
def removeSpans (op cl : Char) (l : Str) : Str :=
  removeSpansAux op cl none l

/-- Helper for `collapseNewlines`; the flag records whether the previous
character was a newline (so that a whole `\n+` run yields one space). -/
def collapseNLAux : Bool → Str → Str
  | _, [] => []
  | prevNL, c :: cs =>
    if c = '\n' then
      if prevNL then collapseNLAux true cs
      else ' ' :: collapseNLAux true cs
    else c :: collapseNLAux false cs

/-- Python's `re.sub(r'\n+', ' ', t)` (`src/summarizer.py` line 59): each
maximal run of newlines becomes a single space. -/
def collapseNewlines (l : Str) : Str := collapseNLAux false l

/-- ASCII word characters: `re`'s `\w` restricted to ASCII, i.e.
`[a-zA-Z0-9_]`.  Non-ASCII characters never reach the end of the
normalization (they are erased by the `[^\x00-\x7F]+` substitution of line
61), so only the ASCII part of the `\w` and `\s` classes matters for the
final value, and it is modelled exactly. -/
def isWordB (c : Char) : Bool :=
  let n := c.toNat
  (97 ≤ n && n ≤ 122) || (65 ≤ n && n ≤ 90) || (48 ≤ n && n ≤ 57) || n == 95

/-- The characters kept by `re.sub(r'[^\w\s\.\?\!]', '', t)`
(`src/summarizer.py` line 60). -/
def keepChar (c : Char) : Bool :=
  isWordB c || isPySpace c || c == '.' || c == '?' || c == '!'

/-- The characters kept by `re.sub(r'[^\x00-\x7F]+', '', t)`
(`src/summarizer.py` line 61). -/
def isAsciiB (c : Char) : Bool := c.toNat ≤ 127

/-- Helper for `splitWS`; `acc` is the reversed current token. -/
def splitWSAux : Str → Str → List Str
  | acc, [] => if acc = [] then [] else [acc.reverse]
  | acc, c :: cs =>
    if isPySpace c then
      if acc = [] then splitWSAux [] cs else acc.reverse :: splitWSAux [] cs
    else splitWSAux (c :: acc) cs

/-- Python's `str.split()` with no arguments: maximal runs of non-whitespace
characters, in order; no empty tokens. -/
def splitWS (l : Str) : List Str := splitWSAux [] l

/-- Python's `' '.join(ws)`. -/
def joinSp : List Str → Str
  | [] => []
  | [w] => w
  | w :: ws => w ++ ' ' :: joinSp ws

/-- The normalization stage of `preprocess_and_chunk_text`
(`src/summarizer.py` lines 53-62).  `sw` stands for the fixed English
stopword set `set(stopwords.words('english'))` loaded from the external NLTK
corpus on line 53; the stage is modelled parametrically in it.  The five
`re.sub` calls and the final
`' '.join([word for word in t.split() if word not in stop_words])`
are applied in source order. -/
def normalizeText (sw : List Str) (text : Str) : Str :=
  let t1 := removeSpans '[' ']' text
  let t2 := removeSpans '(' ')' t1
  let t3 := removeSpans '<' '>' t2
  let t4 := collapseNewlines t3
  let t5 := t4.filter keepChar
  let t6 := t5.filter isAsciiB
  joinSp ((splitWS t6).filter (fun w => !(sw.contains w)))

/-- Helper for `sentTokenize`: cut after every sentence-terminal character,
`acc` being the reversed current sentence. -/
def sentSplitAux : Str → Str → List Str
  | acc, [] => if acc = [] then [] else [acc.reverse]
  | acc, c :: cs =>
    if c = '.' || c = '?' || c = '!' then (c :: acc).reverse :: sentSplitAux [] cs
    else sentSplitAux (c :: acc) cs

/-- Modelled from the spec: the segmenter (`nltk.sent_tokenize` on
`src/summarizer.py` line 65, a library external to this repository) "splits
on sentence-terminal punctuation", and "produces zero-or-more non-empty
trimmed sentences; empty segments are dropped".  Each sentence keeps its
terminal punctuation character. -/
def sentTokenize (t : Str) : List Str :=
  ((sentSplitAux [] t).map pyStrip).filter (· ≠ [])

/-- `Summarizer.preprocess_and_chunk_text` (`src/summarizer.py` lines
38-87): normalization, sentence tokenization and greedy chunking.  All
callers in the repository use the default `chunk_size=3000`. -/
def preprocess_and_chunk_text (sw : List Str) (text : Str) (chunkSize : Nat) :
    List Str :=
  pack (sentTokenize (normalizeText sw text)) chunkSize

/-- The failures the summarization entry points can raise: `ValueError
('Invalid summarization method.')` from `Summarizer.summarize` line 125, and
`openai.error.AuthenticationError`, raised by the openai client inside
`openai.ChatCompletion.create` when `openai.api_key` is `None`. -/
inductive SummError
  | invalidMethod
  | authenticationError
deriving DecidableEq, Repr

/-- One call `openai.ChatCompletion.create(...)` for one chunk
(`src/summarizer.py` lines 101-106).  `apiKey` is the value
`os.getenv('OPENAI_API_KEY')` assigned to `openai.api_key` on line 97;
`llm` abstracts the completion text the service returns for a chunk.
Modelled from the spec for the external openai client: the remote backend
"fails with `AuthenticationError` if no credential is configured", before
any request output is produced. -/
def chatCompletionCreate (apiKey : Option Str) (llm : Str → Str)
    (chunk : Str) : Except SummError Str :=
  match apiKey with
  | none => Except.error SummError.authenticationError
  | some _ => Except.ok (llm chunk)

/-- The loop of `Summarizer._summarize_with_openai` (`src/summarizer.py`
lines 100-108): one backend call per chunk, in order, collecting the
returned fragments; the first raised error aborts the loop. -/
def summarizeWithOpenaiLoop (apiKey : Option Str) (llm : Str → Str) :
    List Str → Except SummError (List Str)
  | [] => Except.ok []
  | chunk :: rest =>
    match chatCompletionCreate apiKey llm chunk with
    | Except.error e => Except.error e
    | Except.ok content =>
      match summarizeWithOpenaiLoop apiKey llm rest with
      | Except.error e => Except.error e
      | Except.ok tl => Except.ok (content :: tl)

/-- `Summarizer._summarize_with_openai` (`src/summarizer.py` lines 89-113):
dispatch every chunk, then `' '.join(full_summary)`.  The same structure is
duplicated in `arxiv_summarizer._summarize_with_gpt`
(`src/arxiv_summarizer.py` lines 52-85). -/
def summarize_with_openai (apiKey : Option Str) (llm : Str → Str)
    (chunks : List Str) : Except SummError Str :=
  match summarizeWithOpenaiLoop apiKey llm chunks with
  | Except.error e => Except.error e
  | Except.ok frags => Except.ok (joinSp frags)

/-- `Summarizer(text, method).summarize()` (`src/summarizer.py` lines 26-36
and 115-125): the chunks are computed in `__init__` with the default
`chunk_size=3000`; `summarize` dispatches on `method == 'openai'` and raises
`ValueError` otherwise. -/
def summarize (apiKey : Option Str) (llm : Str → Str) (sw : List Str)
    (text method : Str) : Except SummError Str :=
  if method = str "openai" then
    summarize_with_openai apiKey llm (preprocess_and_chunk_text sw text 3000)
  else Except.error SummError.invalidMethod

/-- Python's `s.split('.')`: split at every `'.'`, keeping empty pieces. -/
def splitOnDot : Str → List Str
  | [] => [[]]
  | c :: cs =>
    if c = '.' then [] :: splitOnDot cs
    else match splitOnDot cs with
      | t :: ts => (c :: t) :: ts
      | [] => [[c]]

/-- The formatting step of `Summarizer.summarize_in_bullets`
(`src/summarizer.py` lines 136-138), applied to the summary string returned
by `summarize`: `summary.split('.')`, then
`['* ' + point.strip() for point in bullet_points if point.strip()]`,
then `'\n'.join(...)`. -/
def summarize_in_bullets (summary : Str) : Str :=
  let pts := splitOnDot summary
  let pts := (pts.filter (fun p => pyStrip p ≠ [])).map
    (fun p => '*' :: ' ' :: pyStrip p)
  List.intercalate ['\n'] pts

/-- The Bullet Formatter as worded by the spec (§4.6): split on `'.'`,
trim each resulting span, discard the spans that are now empty, prefix each
remaining span with `'* '`, join with newlines. -/
def specBullets (summary : Str) : Str :=
  List.intercalate ['\n']
    ((((splitOnDot summary).map pyStrip).filter (· ≠ [])).map
      (fun p => '*' :: ' ' :: p))

/-- The prospective buffer content in the spec's wording of the packer
(§4.3): the sentence appended to the buffer, "separated by a single space". -/
def specJoin (buffer s : Str) : Str :=
  if buffer = [] then s else buffer ++ ' ' :: s

/-- One step of the Chunk Packer as worded by the spec (§4.3): "for each
sentence in order, if `len_fn(buffer + sentence) <= max_len`, append the
sentence to the buffer (separated by a single space); otherwise, close the
current buffer as a completed chunk (trimmed of trailing whitespace) and
start a new buffer containing just that sentence". -/
def specPackStep (maxLen : Nat) (st : List Str × Str) (s : Str) :
    List Str × Str :=
  if (specJoin st.2 s).length ≤ maxLen then (st.1, specJoin st.2 s)
  else (st.1 ++ [trimRight st.2], s)

/-- The Chunk Packer exactly as worded by the spec (§4.3), including "after
the last sentence, flush any non-empty buffer as a final chunk". -/
def specPack (sentences : List Str) (maxLen : Nat) : List Str :=
  let st := sentences.foldl (specPackStep maxLen) ([], [])
  if st.2 ≠ [] then st.1 ++ [st.2] else st.1

/-- One step of the spec's packer with the acceptance test the code actually
performs: the sentence is appended exactly when the prospective buffer
content, counted together with the trailing space the code keeps after every
sentence, still fits, i.e. when `len(buffer + sentence) + 1 ≤ max_len`. -/
def specPackAmendedStep (maxLen : Nat) (st : List Str × Str) (s : Str) :
    List Str × Str :=
  if (specJoin st.2 s).length + 1 ≤ maxLen then (st.1, specJoin st.2 s)
  else (st.1 ++ [trimRight st.2], s)

/-- The spec's packer with the amended acceptance test. -/
def specPackAmended (sentences : List Str) (maxLen : Nat) : List Str :=
  let st := sentences.foldl (specPackAmendedStep maxLen) ([], [])
  if st.2 ≠ [] then st.1 ++ [st.2] else st.1

/-- The string value of the chunking loop's buffer when it holds the listed
sentences: each sentence followed by the space of `current_chunk += sentence
+ ' '`.  Proof scaffolding relating the loop to the sentences it consumed. -/
def bufStr (g : List Str) : Str := (g.map (· ++ [' '])).flatten

/-- The chunking loop instrumented at the sentence level: the same test as
`packStep` (the buffer's string value is `bufStr`), but the state keeps the
groups of sentences instead of their concatenation. -/
def packGroupsStep (maxLen : Nat) (st : List (List Str) × List Str)
    (s : Str) : List (List Str) × List Str :=
  if (bufStr st.2).length + s.length + 1 ≤ maxLen then (st.1, st.2 ++ [s])
  else (st.1 ++ [st.2], [s])

/-- The sentence-level image of `packLoop`: which consecutive groups of
sentences end up in the same chunk. -/
def packGroups (sentences : List Str) (maxLen : Nat) : List (List Str) :=
  let st := sentences.foldl (packGroupsStep maxLen) ([], [])
  if bufStr st.2 ≠ [] then st.1 ++ [st.2] else st.1

/-- The bound the spec states for every produced chunk: within `maxLen`, or a
single over-length input sentence kept whole. -/
def goodChunk (S : List Str) (maxLen : Nat) (c : Str) : Prop :=
  c.length ≤ maxLen ∨ (c ∈ S ∧ maxLen < c.length)

/-- The code's `current_chunk` corresponding to a spec-side buffer: the same
text followed by the trailing space the code keeps after every sentence
(empty buffers correspond to the empty string).  Proof scaffolding for
relating `packLoop` to the spec-worded packer. -/
def bufWithSpace (buf : Str) : Str :=
  if buf = [] then [] else buf ++ [' ']

/-! ### Basic facts about Python `strip` -/

theorem trimRight_length_le (l : Str) : (trimRight l).length ≤ l.length := by
  unfold trimRight
  simp only [List.length_reverse]
  calc (l.reverse.dropWhile isPySpace).length ≤ l.reverse.length :=
        (List.dropWhile_sublist _).length_le
    _ = l.length := List.length_reverse l

theorem pyStrip_length_le (l : Str) : (pyStrip l).length ≤ l.length := by
  unfold pyStrip
  calc (trimRight (l.dropWhile isPySpace)).length
      ≤ (l.dropWhile isPySpace).length := trimRight_length_le _
    _ ≤ l.length := (List.dropWhile_sublist _).length_le

theorem trimRight_append_space (l : Str) : trimRight (l ++ [' ']) = trimRight l := by
  unfold trimRight
  rw [List.reverse_append]
  simp only [List.reverse_cons, List.reverse_nil, List.nil_append,
    List.singleton_append]
  rw [List.dropWhile_cons_of_pos (by decide)]

theorem pyStrip_append_space (l : Str) : pyStrip (l ++ [' ']) = pyStrip l := by
  unfold pyStrip
  rw [List.dropWhile_append]
  cases he : (l.dropWhile isPySpace).isEmpty
  · simp only [Bool.false_eq_true, if_false]
    exact trimRight_append_space _
  · have h0 : l.dropWhile isPySpace = [] := List.isEmpty_iff.mp he
    rw [h0]
    simp only [if_true]
    rfl

theorem dropWhile_eq_self_of_length {p : Char → Bool} {l : Str}
    (h : (l.dropWhile p).length = l.length) : l.dropWhile p = l :=
  (List.dropWhile_suffix p).eq_of_length h

theorem pyStrip_eq_self_dropLeft {s : Str} (h : pyStrip s = s) :
    s.dropWhile isPySpace = s := by
  have h1 : s.length ≤ (s.dropWhile isPySpace).length := by
    conv_lhs => rw [← h]
    exact trimRight_length_le _
  have h2 : (s.dropWhile isPySpace).length ≤ s.length :=
    (List.dropWhile_sublist _).length_le
  exact dropWhile_eq_self_of_length (Nat.le_antisymm h2 h1)

theorem pyStrip_eq_self_dropRight {s : Str} (h : pyStrip s = s) :
    s.reverse.dropWhile isPySpace = s.reverse := by
  have hL := pyStrip_eq_self_dropLeft h
  have hTR : trimRight s = s := by
    have := h
    unfold pyStrip at this
    rwa [hL] at this
  unfold trimRight at hTR
  have := congrArg List.reverse hTR
  simpa using this

theorem head_not_space {s : Str} {a : Char} {t : Str} (h : pyStrip s = s)
    (he : s = a :: t) : isPySpace a = false := by
  have hd := pyStrip_eq_self_dropLeft h
  rw [he] at hd
  cases hp : isPySpace a
  · rfl
  · rw [List.dropWhile_cons_of_pos hp] at hd
    have h1 := congrArg List.length hd
    have h2 := (List.dropWhile_sublist (l := t) isPySpace).length_le
    simp at h1
    omega

theorem last_not_space {s : Str} {a : Char} {t : Str} (h : pyStrip s = s)
    (he : s.reverse = a :: t) : isPySpace a = false := by
  have hd := pyStrip_eq_self_dropRight h
  rw [he] at hd
  cases hp : isPySpace a
  · rfl
  · rw [List.dropWhile_cons_of_pos hp] at hd
    have h1 := congrArg List.length hd
    have h2 := (List.dropWhile_sublist (l := t) isPySpace).length_le
    simp at h1
    omega

theorem pyStrip_nil : pyStrip [] = [] := rfl

/-! ### The chunking loop at the sentence level -/

theorem bufStr_nil : bufStr [] = [] := rfl

theorem bufStr_append_one (g : List Str) (s : Str) :
    bufStr (g ++ [s]) = bufStr g ++ (s ++ [' ']) := by
  unfold bufStr
  rw [List.map_append, List.flatten_append]
  simp

theorem bufStr_single (s : Str) : bufStr [s] = s ++ [' '] := by
  unfold bufStr
  simp

theorem bufStr_eq_nil {g : List Str} (h : bufStr g = []) : g = [] := by
  cases g with
  | nil => rfl
  | cons s t =>
    exfalso
    unfold bufStr at h
    rw [List.map_cons, List.flatten_cons] at h
    have : s ++ [' '] ≠ [] := by simp
    exact this (List.append_eq_nil.mp h).1

theorem pack_foldl_groups (L : Nat) :
    ∀ (rest : List Str) (gs : List (List Str)) (g : List Str),
      rest.foldl (packStep L) (gs.map (fun x => pyStrip (bufStr x)), bufStr g) =
        (((rest.foldl (packGroupsStep L) (gs, g)).1.map
            (fun x => pyStrip (bufStr x))),
          bufStr (rest.foldl (packGroupsStep L) (gs, g)).2) := by
  intro rest
  induction rest with
  | nil => intro gs g; rfl
  | cons s rest ih =>
    intro gs g
    simp only [List.foldl_cons]
    by_cases hc : (bufStr g).length + s.length + 1 ≤ L
    · have hstep : packStep L (gs.map (fun x => pyStrip (bufStr x)), bufStr g) s =
          ((gs.map (fun x => pyStrip (bufStr x))), bufStr (g ++ [s])) := by
        unfold packStep
        rw [if_pos hc, bufStr_append_one]
        simp
      have hgstep : packGroupsStep L (gs, g) s = (gs, g ++ [s]) := by
        unfold packGroupsStep
        rw [if_pos hc]
      rw [hstep, hgstep]
      exact ih gs (g ++ [s])
    · have hstep : packStep L (gs.map (fun x => pyStrip (bufStr x)), bufStr g) s =
          ((gs ++ [g]).map (fun x => pyStrip (bufStr x)), bufStr [s]) := by
        unfold packStep
        rw [if_neg hc, bufStr_single]
        simp
      have hgstep : packGroupsStep L (gs, g) s = (gs ++ [g], [s]) := by
        unfold packGroupsStep
        rw [if_neg hc]
      rw [hstep, hgstep]
      exact ih (gs ++ [g]) [s]

theorem packLoop_eq_groups (S : List Str) (L : Nat) :
    packLoop S L = (packGroups S L).map (fun g => pyStrip (bufStr g)) := by
  unfold packLoop packGroups
  have h := pack_foldl_groups L S [] []
  rw [show (([] : List (List Str)).map (fun x => pyStrip (bufStr x)), bufStr []) =
      (([], []) : List Str × Str) from rfl] at h
  rw [h]
  set r := S.foldl (packGroupsStep L) ([], []) with hr
  by_cases h2 : bufStr r.2 = []
  · rw [if_neg (by simp [h2]), if_neg (by simp [h2])]
  · rw [if_pos (by simp [h2]), if_pos (by simp [h2])]
    simp

theorem packGroups_foldl_flatten (L : Nat) :
    ∀ (rest : List Str) (gs : List (List Str)) (g : List Str),
      ((rest.foldl (packGroupsStep L) (gs, g)).1.flatten ++
        (rest.foldl (packGroupsStep L) (gs, g)).2) = gs.flatten ++ g ++ rest := by
  intro rest
  induction rest with
  | nil => intro gs g; simp [List.foldl_nil]
  | cons s rest ih =>
    intro gs g
    simp only [List.foldl_cons]
    by_cases hc : (bufStr g).length + s.length + 1 ≤ L
    · have : packGroupsStep L (gs, g) s = (gs, g ++ [s]) := by
        unfold packGroupsStep; rw [if_pos hc]
      rw [this, ih]
      simp
    · have : packGroupsStep L (gs, g) s = (gs ++ [g], [s]) := by
        unfold packGroupsStep; rw [if_neg hc]
      rw [this, ih]
      simp

theorem packGroups_flatten (S : List Str) (L : Nat) :
    (packGroups S L).flatten = S := by
  unfold packGroups
  have h := packGroups_foldl_flatten L S [] []
  simp only [List.flatten_nil, List.nil_append] at h
  set r := S.foldl (packGroupsStep L) ([], []) with hr
  by_cases h2 : bufStr r.2 = []
  · rw [if_neg (by simp [h2])]
    have := bufStr_eq_nil h2
    rw [this] at h
    simpa using h
  · rw [if_pos (by simp [h2])]
    simpa using h

/-! ### Joining sentences with single spaces -/

theorem joinSp_cons_cons (w x : Str) (t : List Str) :
    joinSp (w :: x :: t) = w ++ ' ' :: joinSp (x :: t) := rfl

theorem joinSp_ne_nil {ws : List Str} (h : ws ≠ [])
    (h2 : ∀ w ∈ ws, w ≠ []) : joinSp ws ≠ [] := by
  cases ws with
  | nil => exact absurd rfl h
  | cons w t =>
    cases t with
    | nil => exact h2 w (by simp)
    | cons x t2 =>
      rw [joinSp_cons_cons]
      intro hx
      rcases List.append_eq_nil.mp hx with ⟨_, h4⟩
      exact List.cons_ne_nil _ _ h4

theorem trimRight_append_of_ne (A X : Str) (h : trimRight X ≠ []) :
    trimRight (A ++ X) = A ++ trimRight X := by
  unfold trimRight at *
  rw [List.reverse_append, List.dropWhile_append]
  have hne : (X.reverse.dropWhile isPySpace).isEmpty = false := by
    cases hi : (X.reverse.dropWhile isPySpace).isEmpty
    · rfl
    · exfalso
      apply h
      rw [List.isEmpty_iff.mp hi]
      rfl
  rw [hne]
  simp

theorem trimRight_of_trimmed {s : Str} (h : pyStrip s = s) : trimRight s = s := by
  unfold trimRight
  rw [pyStrip_eq_self_dropRight h, List.reverse_reverse]

theorem trimRight_bufStr {g : List Str} (hg : g ≠ [])
    (h : ∀ s ∈ g, s ≠ [] ∧ pyStrip s = s) :
    trimRight (bufStr g) = joinSp g := by
  induction g with
  | nil => exact absurd rfl hg
  | cons s t ih =>
    cases t with
    | nil =>
      rw [bufStr_single, trimRight_append_space]
      exact trimRight_of_trimmed (h s (by simp)).2
    | cons x t2 =>
      have hbuf : bufStr (s :: x :: t2) = (s ++ [' ']) ++ bufStr (x :: t2) := by
        unfold bufStr
        rw [List.map_cons, List.flatten_cons]
      have hrec : trimRight (bufStr (x :: t2)) = joinSp (x :: t2) :=
        ih (by simp) (fun w hw => h w (by simp [hw]))
      have hne : trimRight (bufStr (x :: t2)) ≠ [] := by
        rw [hrec]
        exact joinSp_ne_nil (by simp) (fun w hw => (h w (by simp [hw])).1)
      rw [hbuf, trimRight_append_of_ne _ _ hne, hrec, joinSp_cons_cons]
      simp

theorem pyStrip_bufStr {g : List Str} (hg : g ≠ [])
    (h : ∀ s ∈ g, s ≠ [] ∧ pyStrip s = s) :
    pyStrip (bufStr g) = joinSp g := by
  cases g with
  | nil => exact absurd rfl hg
  | cons s t =>
    have hs := h s (by simp)
    obtain ⟨a, s', hsa⟩ : ∃ a s', s = a :: s' := by
      cases s with
      | nil => exact absurd rfl hs.1
      | cons a s' => exact ⟨a, s', rfl⟩
    have hhead : isPySpace a = false := head_not_space hs.2 hsa
    have hbuf : ∃ r, bufStr (s :: t) = a :: r := by
      unfold bufStr
      rw [List.map_cons, List.flatten_cons, hsa]
      exact ⟨s' ++ [' '] ++ ((t.map (· ++ [' '])).flatten), by simp⟩
    obtain ⟨r, hbr⟩ := hbuf
    unfold pyStrip
    rw [hbr, List.dropWhile_cons_of_neg (by simp [hhead]), ← hbr]
    exact trimRight_bufStr hg h

/-! ### The packing invariant (claims C1, C2, C8) -/

theorem packC1_foldl (L : Nat) (S : List Str) :
    ∀ (rest : List Str) (acc : List Str × Str),
      (∀ s ∈ rest, s ∈ S ∧ pyStrip s = s) →
      (∀ c ∈ acc.1, goodChunk S L c) →
      goodChunk S L (pyStrip acc.2) →
      (∀ c ∈ (rest.foldl (packStep L) acc).1, goodChunk S L c) ∧
        goodChunk S L (pyStrip (rest.foldl (packStep L) acc).2) := by
  intro rest
  induction rest with
  | nil => intro acc _ h1 h2; exact ⟨h1, h2⟩
  | cons s rest ih =>
    intro acc hrest h1 h2
    simp only [List.foldl_cons]
    have hs := hrest s (by simp)
    have hrest' : ∀ x ∈ rest, x ∈ S ∧ pyStrip x = x :=
      fun x hx => hrest x (by simp [hx])
    by_cases hc : acc.2.length + s.length + 1 ≤ L
    · rw [show packStep L acc s = (acc.1, acc.2 ++ s ++ [' ']) from by
        unfold packStep; rw [if_pos hc]]
      refine ih (acc.1, acc.2 ++ s ++ [' ']) hrest' h1 ?_
      left
      calc (pyStrip (acc.2 ++ s ++ [' '])).length
          ≤ (acc.2 ++ s ++ [' ']).length := pyStrip_length_le _
        _ = acc.2.length + s.length + 1 := by simp; omega
        _ ≤ L := hc
    · rw [show packStep L acc s = (acc.1 ++ [pyStrip acc.2], s ++ [' ']) from by
        unfold packStep; rw [if_neg hc]]
      refine ih (acc.1 ++ [pyStrip acc.2], s ++ [' ']) hrest' ?_ ?_
      · intro c hcm
        rcases List.mem_append.mp hcm with h | h
        · exact h1 c h
        · rw [List.mem_singleton] at h
          subst h; exact h2
      · show goodChunk S L (pyStrip (s ++ [' ']))
        rw [pyStrip_append_space, hs.2]
        by_cases hl : s.length ≤ L
        · left; exact hl
        · right; exact ⟨hs.1, by omega⟩

theorem flatten_filter_ne_nil (G : List (List Str)) :
    (G.filter (· ≠ [])).flatten = G.flatten := by
  induction G with
  | nil => rfl
  | cons g t ih =>
    by_cases hg : g = []
    · subst hg
      rw [List.filter_cons_of_neg (by simp)]
      simpa using ih
    · rw [List.filter_cons_of_pos (by simpa using hg), List.flatten_cons,
        List.flatten_cons, ih]

theorem filter_map_chunk :
    ∀ (G : List (List Str)), (∀ g ∈ G, ∀ s ∈ g, s ≠ [] ∧ pyStrip s = s) →
      (G.map (fun g => pyStrip (bufStr g))).filter (· ≠ []) =
        (G.filter (· ≠ [])).map joinSp := by
  intro G
  induction G with
  | nil => intro _; rfl
  | cons g t ih =>
    intro h
    simp only [List.map_cons]
    by_cases hg : g = []
    · subst hg
      rw [show pyStrip (bufStr []) = [] from rfl]
      rw [List.filter_cons_of_neg (by simp), List.filter_cons_of_neg (by simp)]
      exact ih (fun x hx => h x (by simp [hx]))
    · have hgood : ∀ s ∈ g, s ≠ [] ∧ pyStrip s = s := h g (by simp)
      have hch : pyStrip (bufStr g) = joinSp g := pyStrip_bufStr hg hgood
      have hne : joinSp g ≠ [] := joinSp_ne_nil hg (fun w hw => (hgood w hw).1)
      rw [hch, List.filter_cons_of_pos (by simpa using hne),
        List.filter_cons_of_pos (by simpa using hg), List.map_cons,
        ih (fun x hx => h x (by simp [hx]))]

/-- C1: for every sequence of sentences (trimmed, as the segmenter produces
them) and every bound, each chunk produced by the packing step of
`preprocess_and_chunk_text` either has length at most the bound, or is
exactly one input sentence — kept whole, never truncated or split — whose
own length already exceeds the bound. -/
theorem chunk_length_bound (S : List Str) (L : Nat)
    (hS : ∀ s ∈ S, pyStrip s = s) :
    ∀ c ∈ pack S L, c.length ≤ L ∨ (c ∈ S ∧ L < c.length) := by
  intro c hc
  have hc2 : c ∈ packLoop S L := List.mem_of_mem_filter hc
  unfold packLoop at hc2
  have inv := packC1_foldl L S S ([], [])
    (fun s hs => ⟨hs, hS s hs⟩)
    (by intro x hx; simp at hx)
    (by left; simp [pyStrip_nil])
  set r := S.foldl (packStep L) ([], []) with hr
  by_cases h2 : r.2 = []
  · rw [if_neg (by simp [h2])] at hc2
    exact inv.1 c hc2
  · rw [if_pos (by simp [h2])] at hc2
    rcases List.mem_append.mp hc2 with h | h
    · exact inv.1 c h
    · rw [List.mem_singleton] at h
      subst h
      exact inv.2

theorem chunk_length_bound_witness :
    (str "cdefgh").length ≤ 5 ∨
      (str "cdefgh" ∈ [str "ab", str "cdefgh"] ∧ 5 < (str "cdefgh").length) :=
  chunk_length_bound [str "ab", str "cdefgh"] 5 (by decide) (str "cdefgh")
    (by decide)

/-- C2: for every sequence of non-empty trimmed sentences and every bound,
the chunks produced by the packing step partition the sentence sequence into
consecutive non-empty groups — each chunk is the space-join of its group, so
concatenating the sentences of all chunks in chunk order reproduces the
input exactly, with no sentence lost, duplicated or reordered. -/
theorem chunks_reconstruct_sentences (S : List Str) (L : Nat)
    (hS : ∀ s ∈ S, s ≠ [] ∧ pyStrip s = s) :
    ∃ G : List (List Str), G.flatten = S ∧ (∀ g ∈ G, g ≠ []) ∧
      pack S L = G.map joinSp := by
  have hmem : ∀ g ∈ packGroups S L, ∀ s ∈ g, s ≠ [] ∧ pyStrip s = s := by
    intro g hg s hsg
    apply hS
    rw [← packGroups_flatten S L]
    exact List.mem_flatten.mpr ⟨g, hg, hsg⟩
  refine ⟨(packGroups S L).filter (· ≠ []), ?_, ?_, ?_⟩
  · rw [flatten_filter_ne_nil]
    exact packGroups_flatten S L
  · intro g hg
    simpa using (List.mem_filter.mp hg).2
  · show (packLoop S L).filter (· ≠ []) = _
    rw [packLoop_eq_groups, filter_map_chunk _ hmem]

theorem chunks_reconstruct_sentences_witness :
    ∃ G : List (List Str), G.flatten = [str "ab", str "cd"] ∧
      (∀ g ∈ G, g ≠ []) ∧ pack [str "ab", str "cd"] 30 = G.map joinSp :=
  chunks_reconstruct_sentences [str "ab", str "cd"] 30 (by decide)

/-- C8: for every stopword set, input text and bound, the chunk sequence
returned by `preprocess_and_chunk_text` contains no empty chunk (the list
comprehension on line 85 filters them out). -/
theorem pack_no_empty_chunk (sw : List Str) (text : Str) (L : Nat) :
    ∀ c ∈ preprocess_and_chunk_text sw text L, c ≠ [] := by
  intro c hc
  unfold preprocess_and_chunk_text pack at hc
  simpa using (List.mem_filter.mp hc).2

theorem pack_no_empty_chunk_witness : str "Hi." ≠ [] :=
  pack_no_empty_chunk [] (str "Hi.") 3000 (str "Hi.") (by decide)

/-! ### The spec-worded packer versus the code (claim C3) -/

theorem pyStrip_append_sentence {buf s : Str} (hb : pyStrip buf = buf)
    (hbne : buf ≠ []) (hs : pyStrip s = s) (hsne : s ≠ []) :
    pyStrip (buf ++ ' ' :: s) = buf ++ ' ' :: s := by
  obtain ⟨a, t, hba⟩ : ∃ a t, buf = a :: t := by
    cases buf with
    | nil => exact absurd rfl hbne
    | cons a t => exact ⟨a, t, rfl⟩
  have hha : isPySpace a = false := head_not_space hb hba
  obtain ⟨d, s', hsd⟩ : ∃ d s', s.reverse = d :: s' := by
    cases hre : s.reverse with
    | nil =>
      exfalso
      apply hsne
      simpa using congrArg List.reverse hre
    | cons d s' => exact ⟨d, s', rfl⟩
  have hd : isPySpace d = false := last_not_space hs hsd
  have hcons : buf ++ ' ' :: s = a :: (t ++ ' ' :: s) := by rw [hba]; rfl
  unfold pyStrip trimRight
  rw [hcons, List.dropWhile_cons_of_neg (by simp [hha])]
  have hrev : (a :: (t ++ ' ' :: s)).reverse =
      d :: (s' ++ ([' '] ++ (a :: t).reverse)) := by
    rw [show a :: (t ++ ' ' :: s) = (a :: t) ++ (' ' :: s) from rfl,
      List.reverse_append,
      show (' ' :: s).reverse = s.reverse ++ [' '] from by simp, hsd]
    simp
  rw [hrev, List.dropWhile_cons_of_neg (by simp [hd]), ← hrev,
    List.reverse_reverse]

theorem pyStrip_specJoin {buf s : Str} (hb : pyStrip buf = buf)
    (hs : pyStrip s = s) (hsne : s ≠ []) :
    pyStrip (specJoin buf s) = specJoin buf s := by
  unfold specJoin
  by_cases hbe : buf = []
  · rw [if_pos hbe]; exact hs
  · rw [if_neg hbe]; exact pyStrip_append_sentence hb hbe hs hsne

theorem specJoin_ne_nil {buf s : Str} (hsne : s ≠ []) : specJoin buf s ≠ [] := by
  unfold specJoin
  by_cases hbe : buf = []
  · rw [if_pos hbe]; exact hsne
  · rw [if_neg hbe]
    intro h
    exact hbe (List.append_eq_nil.mp h).1

theorem bufWithSpace_specJoin (buf s : Str) (hsne : s ≠ []) :
    bufWithSpace buf ++ s ++ [' '] = bufWithSpace (specJoin buf s) := by
  have hne : specJoin buf s ≠ [] := specJoin_ne_nil hsne
  unfold bufWithSpace
  rw [if_neg hne]
  by_cases hbe : buf = []
  · rw [if_pos hbe]
    unfold specJoin
    rw [if_pos hbe]
    simp
  · rw [if_neg hbe]
    unfold specJoin
    rw [if_neg hbe]
    simp

theorem length_bufWithSpace_cond (buf s : Str) (L : Nat) :
    ((bufWithSpace buf).length + s.length + 1 ≤ L) ↔
      ((specJoin buf s).length + 1 ≤ L) := by
  unfold bufWithSpace specJoin
  by_cases hbe : buf = []
  · rw [if_pos hbe, if_pos hbe]
    simp
  · rw [if_neg hbe, if_neg hbe]
    simp
    omega

theorem pyStrip_bufWithSpace {buf : Str} (hb : pyStrip buf = buf) :
    pyStrip (bufWithSpace buf) = buf := by
  unfold bufWithSpace
  by_cases hbe : buf = []
  · rw [if_pos hbe, hbe]; rfl
  · rw [if_neg hbe, pyStrip_append_space, hb]

theorem spec_amended_foldl (L : Nat) :
    ∀ (rest : List Str) (chunks : List Str) (buf : Str),
      (∀ s ∈ rest, s ≠ [] ∧ pyStrip s = s) →
      pyStrip buf = buf →
      (rest.foldl (packStep L) (chunks, bufWithSpace buf)).1 =
          (rest.foldl (specPackAmendedStep L) (chunks, buf)).1 ∧
        (rest.foldl (packStep L) (chunks, bufWithSpace buf)).2 =
          bufWithSpace (rest.foldl (specPackAmendedStep L) (chunks, buf)).2 ∧
        pyStrip (rest.foldl (specPackAmendedStep L) (chunks, buf)).2 =
          (rest.foldl (specPackAmendedStep L) (chunks, buf)).2 := by
  intro rest
  induction rest with
  | nil => intro chunks buf _ hbuf; exact ⟨rfl, rfl, hbuf⟩
  | cons s rest ih =>
    intro chunks buf hrest hbuf
    have hs := hrest s (by simp)
    have hrest' : ∀ x ∈ rest, x ≠ [] ∧ pyStrip x = x :=
      fun x hx => hrest x (by simp [hx])
    simp only [List.foldl_cons]
    by_cases hc : (specJoin buf s).length + 1 ≤ L
    · have hcond : (bufWithSpace buf).length + s.length + 1 ≤ L :=
        (length_bufWithSpace_cond buf s L).mpr hc
      rw [show packStep L (chunks, bufWithSpace buf) s =
          (chunks, bufWithSpace buf ++ s ++ [' ']) from by
        unfold packStep; rw [if_pos hcond],
        show specPackAmendedStep L (chunks, buf) s = (chunks, specJoin buf s)
          from by unfold specPackAmendedStep; rw [if_pos hc],
        bufWithSpace_specJoin buf s hs.1]
      exact ih chunks (specJoin buf s) hrest'
        (pyStrip_specJoin hbuf hs.2 hs.1)
    · have hcond : ¬ ((bufWithSpace buf).length + s.length + 1 ≤ L) :=
        fun h => hc ((length_bufWithSpace_cond buf s L).mp h)
      have htr : pyStrip (bufWithSpace buf) = trimRight buf := by
        rw [pyStrip_bufWithSpace hbuf, trimRight_of_trimmed hbuf]
      rw [show packStep L (chunks, bufWithSpace buf) s =
          (chunks ++ [pyStrip (bufWithSpace buf)], s ++ [' ']) from by
        unfold packStep; rw [if_neg hcond],
        show specPackAmendedStep L (chunks, buf) s =
          (chunks ++ [trimRight buf], s) from by
        unfold specPackAmendedStep; rw [if_neg hc],
        htr,
        show s ++ [' '] = bufWithSpace s from by
          unfold bufWithSpace; rw [if_neg hs.1]]
      exact ih (chunks ++ [trimRight buf]) s hrest' hs.2

/-- C3 counterexample: the chunking loop is not the procedure the claim
describes.  On the sentences `["a", "b"]` with `max_len = 3`, the described
procedure accepts `"b"` into the buffer (`len("a b") = 3 ≤ 3`) and yields the
single chunk `"a b"`, but the code tests `len(current_chunk) + len(sentence)
+ 1 <= max_len`, i.e. `2 + 1 + 1 = 4 > 3`, and yields `["a", "b"]`. -/
theorem greedy_condition_counterexample :
    packLoop [str "a", str "b"] 3 ≠ specPack [str "a", str "b"] 3 := by decide

/-- C3 amended: the loop is greedy left-to-right as the spec describes, with
one correction to the acceptance test: a sentence is appended to the buffer
(separated by a single space) if and only if
`len(buffer + sentence) + 1 <= max_len` — the extra `1` counting the
trailing space the code keeps after every sentence — equivalently, if and
only if `len(buffer + sentence) < max_len`; otherwise the buffer is closed
as a trimmed chunk and a new buffer starts with that sentence, and after the
last sentence any non-empty buffer is flushed.  Sentences are assumed
non-empty and trimmed, as the segmenter produces them. -/
theorem greedy_condition_amended (S : List Str) (L : Nat)
    (hS : ∀ s ∈ S, s ≠ [] ∧ pyStrip s = s) :
    packLoop S L = specPackAmended S L := by
  unfold packLoop specPackAmended
  have h := spec_amended_foldl L S [] [] hS rfl
  rw [show bufWithSpace [] = ([] : Str) from rfl] at h
  obtain ⟨h1, h2, h3⟩ := h
  set rc := S.foldl (packStep L) ([], []) with hrc
  set rs := S.foldl (specPackAmendedStep L) ([], []) with hrs
  by_cases hb : rs.2 = []
  · have hc2 : rc.2 = [] := by rw [h2]; unfold bufWithSpace; rw [if_pos hb]
    rw [if_neg (by simp [hc2]), if_neg (by simp [hb])]
    exact h1
  · have hc2 : rc.2 = rs.2 ++ [' '] := by
      rw [h2]; unfold bufWithSpace; rw [if_neg hb]
    rw [if_pos (by simp [hc2]), if_pos (by simp [hb]), h1]
    have : pyStrip rc.2 = rs.2 := by
      rw [hc2, pyStrip_append_space, h3]
    rw [this]

theorem greedy_condition_amended_witness :
    packLoop [str "a", str "b"] 3 = specPackAmended [str "a", str "b"] 3 :=
  greedy_condition_amended [str "a", str "b"] 3 (by decide)

/-! ### The summarization entry points (claims C5, C6, C7) -/

/-- C5 counterexample: on the empty input with the recognized method
`'openai'`, `Summarizer('', 'openai').summarize()` does not fail — the
normalized text is empty, the chunk list is empty, the dispatch loop runs
zero times, and `' '.join([])` returns the empty string.  No validation
error of any kind is raised. -/
theorem empty_input_counterexample :
    summarize (some (str "key")) (fun c => c) [] (str "") (str "openai") =
      Except.ok (str "") := by rfl

/-- C5 amended: for the empty input string and the recognized method
`'openai'`, the pipeline performs no empty-input validation and returns the
empty summary string, for every credential state, backend behaviour and
stopword set. -/
theorem empty_input_amended (apiKey : Option Str) (llm : Str → Str)
    (sw : List Str) :
    summarize apiKey llm sw (str "") (str "openai") = Except.ok (str "") := by
  have hchunks : preprocess_and_chunk_text sw (str "") 3000 = [] := by
    unfold preprocess_and_chunk_text normalizeText
    rfl
  unfold summarize
  rw [if_pos rfl, hchunks]
  rfl

/-- C6 counterexample: with the remote variant `'openai'` selected and no
credential configured (`OPENAI_API_KEY` unset, so `openai.api_key` is
`None`), a run whose chunk list is empty does not fail at all: the dispatch
loop body never executes and the empty summary is returned, so the run does
not fail with a configuration error before any chunk is dispatched. -/
theorem no_credential_counterexample :
    summarize none (fun c => c) [] (str "") (str "openai") =
      Except.ok (str "") := by rfl

/-- C6 amended: with the remote variant selected and no credential
configured, a run with at least one chunk fails with `AuthenticationError`,
raised inside the first `openai.ChatCompletion.create` call — at the first
chunk's dispatch, before any backend output is consumed (the result does not
depend on the backend function at all); a run with zero chunks returns the
empty summary without failing.  There is no credential check before the
dispatch loop. -/
theorem no_credential_amended (llm : Str → Str) (chunks : List Str)
    (h : chunks ≠ []) :
    summarize_with_openai none llm chunks =
      Except.error SummError.authenticationError := by
  cases chunks with
  | nil => exact absurd rfl h
  | cons c rest => rfl

theorem no_credential_amended_witness :
    summarize_with_openai none (fun c => c) [str "chunk"] =
      Except.error SummError.authenticationError :=
  no_credential_amended (fun c => c) [str "chunk"] (by decide)

/-- C7: on the scenario input text, whose sentence sequence is
`["This is sentence one.", "This is sentence two.",
"This is a third sentence."]`, the chunking stage (sentence tokenization
followed by the packing loop, `src/summarizer.py` lines 64-87) with
`max_len = 30` under the character metric produces exactly those three
chunks, in order: no two adjacent sentences fit one chunk under the bound.
The scenario exercises the Chunk Packer on this sentence sequence; the
normalization stage is a separate, earlier pipeline stage and is not part of
the chunking stage. -/
theorem scenario_chunks :
    pack (sentTokenize (str
        "This is sentence one. This is sentence two. This is a third sentence."))
      30 =
    [str "This is sentence one.", str "This is sentence two.",
      str "This is a third sentence."] := by decide

/-! ### The bullet formatter (claim C9) -/

theorem bullets_filter_map (pts : List Str) :
    (pts.filter (fun p => pyStrip p ≠ [])).map
        (fun p => '*' :: ' ' :: pyStrip p) =
      ((pts.map pyStrip).filter (· ≠ [])).map (fun p => '*' :: ' ' :: p) := by
  induction pts with
  | nil => rfl
  | cons p t ih =>
    simp only [List.map_cons]
    by_cases hp : pyStrip p = []
    · rw [List.filter_cons_of_neg (by simp [hp]),
        List.filter_cons_of_neg (by simp [hp])]
      exact ih
    · rw [List.filter_cons_of_pos (by simp [hp]),
        List.filter_cons_of_pos (by simp [hp]), List.map_cons,
        List.map_cons, ih]

/-- C9: the bullet formatting of `summarize_in_bullets` is a pure function
of the summary string and is exactly the spec's description: split on `'.'`,
trim each span, discard the spans that are empty after trimming, prefix each
remaining span with `'* '`, join with newlines; the empty summary yields the
empty string. -/
theorem bullets_spec :
    (∀ s : Str, summarize_in_bullets s = specBullets s) ∧
      summarize_in_bullets [] = [] := by
  constructor
  · intro s
    show List.intercalate ['\n']
        (((splitOnDot s).filter (fun p => pyStrip p ≠ [])).map
          (fun p => '*' :: ' ' :: pyStrip p)) = specBullets s
    unfold specBullets
    rw [bullets_filter_map]
  · rfl

/-! ### Normalization facts (claims C4, C10) -/

theorem removeSpansAux_none_id {op cl : Char} :
    ∀ {l : Str}, op ∉ l → removeSpansAux op cl none l = l := by
  intro l
  induction l with
  | nil => intro _; rfl
  | cons c cs ih =>
    intro h
    have hc : ¬ (c = op) := by
      intro he
      exact h (he ▸ List.mem_cons_self c cs)
    simp only [removeSpansAux]
    rw [if_neg hc, ih (fun hm => h (List.mem_cons_of_mem c hm))]

theorem removeSpans_id {op cl : Char} {l : Str} (h : op ∉ l) :
    removeSpans op cl l = l :=
  removeSpansAux_none_id h

theorem collapseNLAux_id :
    ∀ {l : Str}, '\n' ∉ l → ∀ b, collapseNLAux b l = l := by
  intro l
  induction l with
  | nil => intro _ b; rfl
  | cons c cs ih =>
    intro h b
    have hc : ¬ (c = '\n') := by
      intro he
      exact h (he ▸ List.mem_cons_self c cs)
    simp only [collapseNLAux]
    rw [if_neg hc, ih (fun hm => h (List.mem_cons_of_mem c hm)) false]

theorem collapseNewlines_id {l : Str} (h : '\n' ∉ l) :
    collapseNewlines l = l :=
  collapseNLAux_id h false

theorem joinSp_chars {c : Char} :
    ∀ {ws : List Str}, c ∈ joinSp ws → (∃ w ∈ ws, c ∈ w) ∨ c = ' ' := by
  intro ws
  induction ws with
  | nil => intro h; simp [joinSp] at h
  | cons w t ih =>
    cases t with
    | nil =>
      intro h
      exact Or.inl ⟨w, by simp, h⟩
    | cons x t2 =>
      intro h
      rw [joinSp_cons_cons] at h
      rcases List.mem_append.mp h with h | h
      · exact Or.inl ⟨w, by simp, h⟩
      · rcases List.mem_cons.mp h with h | h
        · exact Or.inr h
        · rcases ih h with ⟨w', hw', hc'⟩ | h2
          · exact Or.inl ⟨w', by simp [hw'], hc'⟩
          · exact Or.inr h2

theorem splitWSAux_chars :
    ∀ (l acc : Str) (w : Str), w ∈ splitWSAux acc l → ∀ c ∈ w, c ∈ acc ∨ c ∈ l := by
  intro l
  induction l with
  | nil =>
    intro acc w hw c hc
    simp only [splitWSAux] at hw
    by_cases ha : acc = []
    · rw [if_pos ha] at hw
      simp at hw
    · rw [if_neg ha] at hw
      rw [List.mem_singleton] at hw
      subst hw
      exact Or.inl (List.mem_reverse.mp hc)
  | cons d cs ih =>
    intro acc w hw c hc
    simp only [splitWSAux] at hw
    by_cases hd : isPySpace d = true
    · rw [if_pos hd] at hw
      by_cases ha : acc = []
      · rw [if_pos ha] at hw
        rcases ih [] w hw c hc with h | h
        · simp at h
        · exact Or.inr (List.mem_cons_of_mem d h)
      · rw [if_neg ha] at hw
        rcases List.mem_cons.mp hw with h | h
        · subst h
          exact Or.inl (List.mem_reverse.mp hc)
        · rcases ih [] w h c hc with h2 | h2
          · simp at h2
          · exact Or.inr (List.mem_cons_of_mem d h2)
    · rw [if_neg hd] at hw
      rcases ih (d :: acc) w hw c hc with h | h
      · rcases List.mem_cons.mp h with h2 | h2
        · subst h2
          exact Or.inr (List.mem_cons_self c cs)
        · exact Or.inl h2
      · exact Or.inr (List.mem_cons_of_mem d h)

theorem splitWSAux_tokens :
    ∀ (l acc : Str), (∀ c ∈ acc, isPySpace c = false) →
      ∀ w ∈ splitWSAux acc l, w ≠ [] ∧ ∀ c ∈ w, isPySpace c = false := by
  intro l
  induction l with
  | nil =>
    intro acc hacc w hw
    simp only [splitWSAux] at hw
    by_cases ha : acc = []
    · rw [if_pos ha] at hw
      simp at hw
    · rw [if_neg ha] at hw
      rw [List.mem_singleton] at hw
      subst hw
      exact ⟨by simpa using ha, fun c hc => hacc c (List.mem_reverse.mp hc)⟩
  | cons d cs ih =>
    intro acc hacc w hw
    simp only [splitWSAux] at hw
    by_cases hd : isPySpace d = true
    · rw [if_pos hd] at hw
      by_cases ha : acc = []
      · rw [if_pos ha] at hw
        exact ih [] (by simp) w hw
      · rw [if_neg ha] at hw
        rcases List.mem_cons.mp hw with h | h
        · subst h
          exact ⟨by simpa using ha, fun c hc => hacc c (List.mem_reverse.mp hc)⟩
        · exact ih [] (by simp) w h
    · rw [if_neg hd] at hw
      refine ih (d :: acc) ?_ w hw
      intro c hc
      rcases List.mem_cons.mp hc with h2 | h2
      · subst h2
        simpa using hd
      · exact hacc c h2

theorem splitWSAux_append_nospace :
    ∀ (w : Str), (∀ c ∈ w, isPySpace c = false) →
      ∀ (acc r : Str), splitWSAux acc (w ++ r) = splitWSAux (w.reverse ++ acc) r := by
  intro w
  induction w with
  | nil => intro _ acc r; simp
  | cons d w' ih =>
    intro h acc r
    have hd : isPySpace d = false := h d (by simp)
    show splitWSAux acc (d :: (w' ++ r)) = _
    simp only [splitWSAux]
    rw [if_neg (by simp [hd]), ih (fun c hc => h c (by simp [hc])) (d :: acc) r]
    congr 1
    simp

theorem splitWS_joinSp :
    ∀ (ws : List Str), (∀ w ∈ ws, w ≠ []) →
      (∀ w ∈ ws, ∀ c ∈ w, isPySpace c = false) →
      splitWS (joinSp ws) = ws := by
  intro ws
  induction ws with
  | nil => intro _ _; rfl
  | cons w t ih =>
    intro h1 h2
    have hw1 : w ≠ [] := h1 w (by simp)
    have hw2 : ∀ c ∈ w, isPySpace c = false := h2 w (by simp)
    cases t with
    | nil =>
      show splitWSAux [] (joinSp [w]) = [w]
      rw [show joinSp [w] = w from rfl]
      conv_lhs => rw [show w = w ++ [] from (List.append_nil w).symm]
      rw [splitWSAux_append_nospace w hw2 [] [], List.append_nil]
      simp [splitWSAux, hw1]
    | cons x t2 =>
      show splitWSAux [] (joinSp (w :: x :: t2)) = w :: x :: t2
      rw [joinSp_cons_cons,
        splitWSAux_append_nospace w hw2 [] (' ' :: joinSp (x :: t2))]
      simp only [splitWSAux]
      rw [if_pos (by decide), if_neg (by simpa using hw1)]
      rw [show splitWSAux [] (joinSp (x :: t2)) = x :: t2 from
        ih (fun v hv => h1 v (by simp [hv])) (fun v hv => h2 v (by simp [hv]))]
      simp

theorem normalizeText_tokens (sw : List Str) (t : Str) :
    ∃ ws : List Str, normalizeText sw t = joinSp ws ∧
      (∀ w ∈ ws, w ≠ []) ∧
      (∀ w ∈ ws, ∀ c ∈ w,
        isPySpace c = false ∧ keepChar c = true ∧ isAsciiB c = true) ∧
      (∀ w ∈ ws, sw.contains w = false) := by
  refine ⟨(splitWS (((collapseNewlines (removeSpans '<' '>' (removeSpans '(' ')'
      (removeSpans '[' ']' t)))).filter keepChar).filter isAsciiB)).filter
        (fun w => !(sw.contains w)), rfl, ?_, ?_, ?_⟩
  · intro w hw
    have hm := List.mem_of_mem_filter hw
    exact (splitWSAux_tokens _ [] (by simp) w hm).1
  · intro w hw c hc
    have hm := List.mem_of_mem_filter hw
    have hns := (splitWSAux_tokens _ [] (by simp) w hm).2 c hc
    have hct : c ∈ ((collapseNewlines (removeSpans '<' '>' (removeSpans '(' ')'
        (removeSpans '[' ']' t)))).filter keepChar).filter isAsciiB := by
      rcases splitWSAux_chars _ [] w hm c hc with h | h
      · simp at h
      · exact h
    have h6 := List.mem_filter.mp hct
    have h5 := List.mem_filter.mp h6.1
    exact ⟨hns, h5.2, h6.2⟩
  · intro w hw
    have := (List.mem_filter.mp hw).2
    simpa using this

theorem normalizeText_fixed (sw : List Str) (ws : List Str)
    (h1 : ∀ w ∈ ws, w ≠ [])
    (h2 : ∀ w ∈ ws, ∀ c ∈ w,
      isPySpace c = false ∧ keepChar c = true ∧ isAsciiB c = true)
    (h3 : ∀ w ∈ ws, sw.contains w = false) :
    normalizeText sw (joinSp ws) = joinSp ws := by
  have hchar : ∀ c ∈ joinSp ws,
      keepChar c = true ∧ isAsciiB c = true ∧ c ≠ '\n' ∧ c ≠ '[' ∧
        c ≠ '(' ∧ c ≠ '<' := by
    intro c hc
    rcases joinSp_chars hc with ⟨w, hw, hcw⟩ | h
    · obtain ⟨hns, hk, ha⟩ := h2 w hw c hcw
      refine ⟨hk, ha, ?_, ?_, ?_, ?_⟩
      · intro he; rw [he] at hns; exact absurd hns (by decide)
      · intro he; rw [he] at hk; exact absurd hk (by decide)
      · intro he; rw [he] at hk; exact absurd hk (by decide)
      · intro he; rw [he] at hk; exact absurd hk (by decide)
    · subst h
      refine ⟨by decide, by decide, by decide, by decide, by decide, by decide⟩
  have hnol : ('[' : Char) ∉ joinSp ws := fun hm => (hchar _ hm).2.2.2.1 rfl
  have hnop : ('(' : Char) ∉ joinSp ws := fun hm => (hchar _ hm).2.2.2.2.1 rfl
  have hnoa : ('<' : Char) ∉ joinSp ws := fun hm => (hchar _ hm).2.2.2.2.2 rfl
  have hnon : ('\n' : Char) ∉ joinSp ws := fun hm => (hchar _ hm).2.2.1 rfl
  show joinSp ((splitWS (((collapseNewlines (removeSpans '<' '>'
      (removeSpans '(' ')' (removeSpans '[' ']' (joinSp ws))))).filter
        keepChar).filter isAsciiB)).filter (fun w => !(sw.contains w))) =
    joinSp ws
  rw [removeSpans_id hnol, removeSpans_id hnop, removeSpans_id hnoa,
    collapseNewlines_id hnon,
    List.filter_eq_self.mpr (fun c hc => (hchar c hc).1),
    List.filter_eq_self.mpr (fun c hc => (hchar c hc).2.1),
    splitWS_joinSp ws h1 (fun w hw c hc => (h2 w hw c hc).1),
    List.filter_eq_self.mpr (fun w hw => by simpa using h3 w hw)]

/-- C4: the normalization stage is idempotent — for every stopword set and
every input text, normalizing the normalized text returns it unchanged.  The
output consists of whitespace-free non-stopword tokens joined by single
spaces, over characters that every cleaning substitution already keeps, so
each stage of a second run is the identity. -/
theorem normalize_idempotent (sw : List Str) (t : Str) :
    normalizeText sw (normalizeText sw t) = normalizeText sw t := by
  obtain ⟨ws, heq, h1, h2, h3⟩ := normalizeText_tokens sw t
  rw [heq]
  exact normalizeText_fixed sw ws h1 h2 h3

theorem joinSp_cons_head {x : Str} (t : List Str) {a : Char} {x' : Str}
    (hx : x = a :: x') : ∃ r, joinSp (x :: t) = a :: r := by
  cases t with
  | nil => exact ⟨x', by rw [show joinSp [x] = x from rfl, hx]⟩
  | cons y t' =>
    refine ⟨x' ++ ' ' :: joinSp (y :: t'), ?_⟩
    rw [joinSp_cons_cons, hx]
    rfl

theorem joinSp_concat {ws : List Str} (hne : ws ≠ [])
    (h1 : ∀ w ∈ ws, w ≠ []) :
    ∃ init d, joinSp ws = init ++ [d] ∧ d ∈ ws.getLast hne := by
  induction ws with
  | nil => exact absurd rfl hne
  | cons w t ih =>
    cases t with
    | nil =>
      have hw : w ≠ [] := h1 w (by simp)
      rcases List.eq_nil_or_concat w with h | ⟨l', a, ha⟩
      · exact absurd h hw
      · refine ⟨l', a, ?_, ?_⟩
        · rw [show joinSp [w] = w from rfl, ha]
          simp
        · rw [show ([w].getLast hne) = w from rfl, ha]
          simp
    | cons x t2 =>
      obtain ⟨init, d, hjoin, hmem⟩ :=
        ih (by simp) (fun v hv => h1 v (by simp [hv]))
      refine ⟨w ++ ' ' :: init, d, ?_, ?_⟩
      · rw [joinSp_cons_cons, hjoin]
        simp
      · rw [show ((w :: x :: t2).getLast hne) = ((x :: t2).getLast (by simp))
          from List.getLast_cons (by simp)]
        exact hmem

theorem pyStrip_joinSp {ws : List Str} (h1 : ∀ w ∈ ws, w ≠ [])
    (h2 : ∀ w ∈ ws, ∀ c ∈ w, isPySpace c = false) :
    pyStrip (joinSp ws) = joinSp ws := by
  cases hws : ws with
  | nil => rfl
  | cons w t =>
    subst hws
    have hw : w ≠ [] := h1 w (by simp)
    obtain ⟨a, x', hx⟩ : ∃ a x', w = a :: x' := by
      cases w with
      | nil => exact absurd rfl hw
      | cons a x' => exact ⟨a, x', rfl⟩
    have hha : isPySpace a = false := h2 w (by simp) a (by simp [hx])
    obtain ⟨r, hr⟩ := joinSp_cons_head t hx
    obtain ⟨init, d, hjoin, hdmem⟩ := joinSp_concat (List.cons_ne_nil w t) h1
    have hd : isPySpace d = false := by
      have hwd : (w :: t).getLast (List.cons_ne_nil w t) ∈ w :: t :=
        List.getLast_mem _
      have hdin : d ∈ (w :: t).getLast (List.cons_ne_nil w t) := hdmem
      exact h2 _ hwd d hdin
    unfold pyStrip trimRight
    rw [hr, List.dropWhile_cons_of_neg (by simp [hha]), ← hr, hjoin]
    rw [show (init ++ [d]).reverse = d :: init.reverse from by simp]
    rw [List.dropWhile_cons_of_neg (by simp [hd])]
    rw [show (d :: init.reverse).reverse = init ++ [d] from by simp]

theorem chain_nospace {w : Str} (h : ∀ c ∈ w, isPySpace c = false) :
    List.Chain' (fun a b => ¬(isPySpace a = true ∧ isPySpace b = true)) w := by
  induction w with
  | nil => exact List.chain'_nil
  | cons a t ih =>
    refine List.chain'_cons'.mpr ⟨?_, ih (fun c hc => h c (by simp [hc]))⟩
    intro y _
    intro ⟨ha, _⟩
    rw [h a (by simp)] at ha
    exact absurd ha (by simp)

theorem chain_joinSp {ws : List Str} (h1 : ∀ w ∈ ws, w ≠ [])
    (h2 : ∀ w ∈ ws, ∀ c ∈ w, isPySpace c = false) :
    List.Chain' (fun a b => ¬(isPySpace a = true ∧ isPySpace b = true))
      (joinSp ws) := by
  induction ws with
  | nil => exact List.chain'_nil
  | cons w t ih =>
    cases t with
    | nil => exact chain_nospace (h2 w (by simp))
    | cons x t2 =>
      rw [joinSp_cons_cons]
      have hx : x ≠ [] := h1 x (by simp)
      obtain ⟨a, x', hxa⟩ : ∃ a x', x = a :: x' := by
        cases x with
        | nil => exact absurd rfl hx
        | cons a x' => exact ⟨a, x', rfl⟩
      obtain ⟨r, hr⟩ := joinSp_cons_head t2 hxa
      have hha : isPySpace a = false := h2 x (by simp) a (by simp [hxa])
      refine List.Chain'.append (chain_nospace (h2 w (by simp))) ?_ ?_
      · refine List.chain'_cons'.mpr ⟨?_, ?_⟩
        · intro y hy
          rw [hr] at hy
          simp at hy
          intro ⟨_, hb⟩
          rw [← hy, hha] at hb
          exact absurd hb (by simp)
        · exact ih (fun v hv => h1 v (by simp [hv]))
            (fun v hv => h2 v (by simp [hv]))
      · intro c hc y hy
        have hcw : c ∈ w := List.mem_of_mem_getLast? hc
        intro ⟨ha, _⟩
        rw [h2 w (by simp) c hcw] at ha
        exact absurd ha (by simp)

/-- C10: for every stopword set and input text, the normalized text contains
only ASCII word characters, the sentence punctuation `'.'`, `'?'`, `'!'`,
and single spaces: it has no leading or trailing whitespace and no two
consecutive whitespace characters. -/
theorem normalize_output_charset (sw : List Str) (t : Str) :
    (∀ c ∈ normalizeText sw t,
        isWordB c = true ∨ c = '.' ∨ c = '?' ∨ c = '!' ∨ c = ' ') ∧
      pyStrip (normalizeText sw t) = normalizeText sw t ∧
      List.Chain' (fun a b => ¬(isPySpace a = true ∧ isPySpace b = true))
        (normalizeText sw t) := by
  obtain ⟨ws, heq, h1, h2, _⟩ := normalizeText_tokens sw t
  rw [heq]
  refine ⟨?_, pyStrip_joinSp h1 (fun w hw c hc => (h2 w hw c hc).1),
    chain_joinSp h1 (fun w hw c hc => (h2 w hw c hc).1)⟩
  intro c hc
  rcases joinSp_chars hc with ⟨w, hw, hcw⟩ | h
  · obtain ⟨hns, hk, _⟩ := h2 w hw c hcw
    unfold keepChar at hk
    simp only [Bool.or_eq_true, beq_iff_eq] at hk
    rcases hk with ((((h | h) | h) | h) | h)
    · exact Or.inl h
    · simp [h] at hns
    · exact Or.inr (Or.inl h)
    · exact Or.inr (Or.inr (Or.inl h))
    · exact Or.inr (Or.inr (Or.inr (Or.inl h)))
  · exact Or.inr (Or.inr (Or.inr (Or.inr h)))

theorem normalize_idempotent_witness :
    normalizeText [] (normalizeText [] (str "Hi there.")) =
      normalizeText [] (str "Hi there.") :=
  normalize_idempotent [] (str "Hi there.")

theorem bullets_spec_witness :
    summarize_in_bullets (str "First point. Second point.") =
      specBullets (str "First point. Second point.") :=
  bullets_spec.1 (str "First point. Second point.")

theorem normalize_output_charset_witness :
    pyStrip (normalizeText [] (str "a  b")) = normalizeText [] (str "a  b") :=
  (normalize_output_charset [] (str "a  b")).2.1

theorem empty_input_amended_witness :
    summarize none (fun _ => str "x") [str "the"] (str "") (str "openai") =
      Except.ok (str "") :=
  empty_input_amended none (fun _ => str "x") [str "the"]
